import Mathlib

/-!
Verification development for the smart-grid layout engine.

The definitions below are a shallow embedding of the TypeScript sources:
  - src/src/types.ts              (FillMode, RowItem, Row, SIZE_UNITS)
  - src/src/calculate-spans.ts    (calculateSpans, calculateRowSpans, distributeColumns)
  - src/src/build-rows.ts         (buildRows, buildGreedyRows, buildBalancedRows,
                                   calculateBalancedDistribution, tryDistribution,
                                   distributeRemaining, isBalanced, fillGreedy)
  - src/src/utils/distribute.ts   (calculateRowDistribution and its inline search loop)
  - src/unnamed/part_000          (calculateGridColumns, greatestCommonDivisor,
                                   leastCommonMultiple, the two columns getters,
                                   resolveDataSize)
  - the parse-size module appended to src/src/utils/resolve-to-pixels.ts (parseSize)

JavaScript numbers on these code paths hold integers (item counts, column counts,
unit sizes); they are modelled as Nat.  The real-valued intermediate quantities in
distributeColumns (scaleFactor, exact spans, fractional parts) are represented
exactly: floors as Nat division, and fractional parts by their numerators over the
common denominator totalSize.  The float threshold comparison lastRow / cols >= 0.34
is modelled as the exact rational comparison 34 * cols <= 100 * lastRow.
-/

set_option maxHeartbeats 1000000

/-- Fill policy from src/types.ts: FillMode is equal-extra or none. -/
inductive FillMode where
  | equalExtra
  | none
deriving DecidableEq, Repr

/-- Row item from src/types.ts: the original sequence index plus the resolved unit size. -/
structure RowItem where
  index : Nat
  size : Nat
deriving DecidableEq, Repr

/-- Row from src/types.ts: an ordered list of row items. -/
abbrev Row := List RowItem

/-- Enumeration of a size list into row items, as done by the forEach loops of
src/build-rows.ts that build items as objects with index and size fields. -/
def enumItems : Nat → List Nat → List RowItem
  | _, [] => []
  | i, s :: rest => ⟨i, s⟩ :: enumItems (i + 1) rest

/-- Index-value enumeration, modelling list.map of a value and its position. -/
def enumFromIdx {α : Type} : Nat → List α → List (Nat × α)
  | _, [] => []
  | i, v :: rest => (i, v) :: enumFromIdx (i + 1) rest

/-- Unit-size total of a row: row.reduce of a running sum of item.size, starting from 0. -/
def rowTotal (row : Row) : Nat :=
  row.foldl (fun s item => s + item.size) 0

/-- Increment of result at one position, modelling the statement incrementing
result at the given index inside the remainder loop of distributeColumns. -/
def bumpAt : List Nat → Nat → List Nat
  | [], _ => []
  | x :: xs, 0 => (x + 1) :: xs
  | x :: xs, i + 1 => x :: bumpAt xs i

/-- Remainder-distribution loop of distributeColumns in src/calculate-spans.ts:
walk the sorted index list and add one unit per index while remainder is positive. -/
def distribExtras : List Nat → List Nat → Int → List Nat
  | res, [], _ => res
  | res, i :: rest, r => if r ≤ 0 then res else distribExtras (bumpAt res i) rest (r - 1)

/-- Insertion into a list ordered by descending second component; on ties the earlier
original element stays first, matching the stable Array sort in the source. -/
def insertDesc (x : Nat × Nat) : List (Nat × Nat) → List (Nat × Nat)
  | [] => [x]
  | y :: ys => if x.2 < y.2 then y :: insertDesc x ys else x :: y :: ys

/-- Stable sort by descending fractional part, modelling fractionalParts.sort with the
comparator subtracting fractions (descending, stable per the ECMAScript spec). -/
def sortDesc : List (Nat × Nat) → List (Nat × Nat)
  | [] => []
  | x :: xs => insertDesc x (sortDesc xs)

/-- Largest-remainder span distribution from src/calculate-spans.ts (distributeColumns).
Exact spans item.size * maxColumns / totalSize are kept as rationals with denominator
totalSize: the floor is Nat division and the fractional part is the numerator
item.size * maxColumns % totalSize. -/
def distributeColumns (row : Row) (maxColumns totalSize : Nat) : List Nat :=
  let floorSpans := row.map (fun item => max 1 (item.size * maxColumns / totalSize))
  let remainder : Int := (maxColumns : Int) - (floorSpans.sum : Int)
  let fractionalParts := enumFromIdx 0 (row.map (fun item => item.size * maxColumns % totalSize))
  let sorted := sortDesc fractionalParts
  distribExtras floorSpans (sorted.map Prod.fst) remainder

/-- Math.round of the exact rational num / den, rounding half up as Math.round does. -/
def roundHalfUp (num den : Nat) : Nat := (2 * num + den) / (2 * den)

/-- Per-row span calculation from src/calculate-spans.ts (calculateRowSpans). -/
def calculateRowSpans (row : Row) (maxColumns : Nat) (mode : FillMode)
    (referenceTotalSize : Option Nat) : List Nat :=
  match mode with
  | FillMode.none =>
    match referenceTotalSize with
    | some ref => row.map (fun item => max 1 (roundHalfUp (item.size * maxColumns) ref))
    | Option.none => row.map (fun item => item.size)
  | FillMode.equalExtra =>
    let totalSize := rowTotal row
    if totalSize = 0 then row.map (fun _ => 1)
    else distributeColumns row maxColumns totalSize

/-- Math.max over a list of Nat (0 for the empty list; every call site below passes a
non-empty list, matching the sources that never spread an empty array into Math.max). -/
def maxList (l : List Nat) : Nat := l.foldl max 0

/-- Span calculation over all rows from src/calculate-spans.ts (calculateSpans): the last
row uses fill-last when given, and fill-last none combined with fill equal-extra routes
the reference row total into the per-row calculation. -/
def calculateSpans (rows : List Row) (maxColumns : Nat) (fill : FillMode)
    (fillLast : Option FillMode) : List Nat :=
  if rows.isEmpty then []
  else
    let effectiveFillLast := fillLast.getD fill
    let maxRowLength := maxList (rows.map List.length)
    let referenceRow := rows.find? (fun row => row.length = maxRowLength)
    let referenceTotalSize :=
      match referenceRow with
      | some r => rowTotal r
      | Option.none => maxColumns
    ((enumFromIdx 0 rows).map (fun p =>
      let isLastRow := p.1 = rows.length - 1
      let mode := if isLastRow then effectiveFillLast else fill
      let useReferenceSize :=
        isLastRow ∧ fillLast = some FillMode.none ∧ fill = FillMode.equalExtra
      calculateRowSpans p.2 maxColumns mode
        (if useReferenceSize then some referenceTotalSize else Option.none))).flatten

/-- Greedy first-fit accumulation from src/build-rows.ts (the forEach loop of
buildGreedyRows), carrying the current row and its running unit total. -/
def buildGreedyAux (maxColumns : Nat) : List RowItem → Row → Nat → List Row
  | [], currentRow, _ => if currentRow.isEmpty then [] else [currentRow]
  | item :: rest, currentRow, currentRowSize =>
    if maxColumns < currentRowSize + item.size then
      (if currentRow.isEmpty then [] else [currentRow])
        ++ buildGreedyAux maxColumns rest [item] item.size
    else
      buildGreedyAux maxColumns rest (currentRow ++ [item]) (currentRowSize + item.size)

/-- Greedy row building from src/build-rows.ts (buildGreedyRows). -/
def buildGreedyRows (sizes : List Nat) (maxColumns : Nat) : List Row :=
  buildGreedyAux maxColumns (enumItems 0 sizes) [] 0

/-- Tail distribution by repeated ceiling: distributeRemaining in src/build-rows.ts and
the identical inline loop of src/utils/distribute.ts; the ceiling of items over k + 1
is (items + k) / (k + 1). -/
def distributeRemaining : Nat → Nat → List Nat
  | _, 0 => []
  | items, k + 1 =>
    (items + k) / (k + 1) :: distributeRemaining (items - (items + k) / (k + 1)) k

/-- Orphan acceptability from src/build-rows.ts (isBalanced); the float comparison of
lastRow / cols against the 0.34 threshold is the exact comparison 34 * cols <= 100 * lastRow. -/
def isBalanced (rows : List Nat) (cols : Nat) : Bool :=
  if rows.isEmpty then false
  else rows.length == 1 || decide (34 * cols ≤ 100 * (rows.getLast?.getD 0))

/-- Candidate construction from src/build-rows.ts (tryDistribution); the source guard
for negative remainingItems is the items < itemsInFullRows test. -/
def tryDistribution (items cols minRows fullRows : Nat) : List Nat :=
  let itemsInFullRows := fullRows * cols
  let remainingRows := minRows - fullRows
  if remainingRows = 0 ∨ items < itemsInFullRows then []
  else
    let remainingItems := items - itemsInFullRows
    let itemsPerRemainingRow := (remainingItems + remainingRows - 1) / remainingRows
    if cols < itemsPerRemainingRow then []
    else List.replicate fullRows cols ++ distributeRemaining remainingItems remainingRows

/-- Greedy fallback chunking from src/build-rows.ts (fillGreedy) and the identical
fallback loop of src/utils/distribute.ts; the source while loop does not terminate for
cols = 0, which no caller reaches, and that case is mapped to the empty list. -/
def fillGreedy (items cols : Nat) : List Nat :=
  if h : items = 0 ∨ cols = 0 then []
  else min items cols :: fillGreedy (items - min items cols) cols
termination_by items
decreasing_by
  push_neg at h
  omega

/-- Candidate search of calculateBalancedDistribution in src/build-rows.ts: fullRows runs
from minRows - 1 down to 0 and the greedy fallback closes the search. -/
def searchLoop (items cols minRows : Nat) : Nat → List Nat
  | 0 => fillGreedy items cols
  | f + 1 =>
    let result := tryDistribution items cols minRows f
    if result ≠ [] ∧ isBalanced result cols then result
    else searchLoop items cols minRows f

/-- Balanced distribution from src/build-rows.ts (calculateBalancedDistribution). -/
def calculateBalancedDistribution (items cols minRows : Nat) : List Nat :=
  searchLoop items cols minRows minRows

/-- Search loop of calculateRowDistribution in src/utils/distribute.ts, written there
inline: same candidate construction, with the acceptance test ordered as the orphan
ratio check first and the single-row check second. -/
def distributionLoop (itemCount maxColumns minRows : Nat) : Nat → List Nat
  | 0 => fillGreedy itemCount maxColumns
  | f + 1 =>
    let itemsInFullRows := f * maxColumns
    let remainingItems := itemCount - itemsInFullRows
    let remainingRows := minRows - f
    if remainingRows = 0 then distributionLoop itemCount maxColumns minRows f
    else
      let itemsPerRemainingRow := (remainingItems + remainingRows - 1) / remainingRows
      if itemsPerRemainingRow ≤ maxColumns then
        let rows := List.replicate f maxColumns
          ++ distributeRemaining remainingItems remainingRows
        let lastRow := rows.getLast?.getD 0
        if 34 * maxColumns ≤ 100 * lastRow ∨ rows.length = 1 then rows
        else distributionLoop itemCount maxColumns minRows f
      else distributionLoop itemCount maxColumns minRows f

/-- Row distribution from src/utils/distribute.ts (calculateRowDistribution); the minimum
row count is the ceiling of itemCount over maxColumns. -/
def calculateRowDistribution (itemCount maxColumns : Nat) : List Nat :=
  if itemCount = 0 then []
  else if maxColumns = 0 then []
  else if itemCount ≤ maxColumns then [itemCount]
  else
    let minRows := (itemCount + maxColumns - 1) / maxColumns
    distributionLoop itemCount maxColumns minRows minRows

/-- Slicing of the enumerated item sequence along a distribution, modelling the
itemIndex loop of buildBalancedRows in src/build-rows.ts. -/
def sliceRows (items : List RowItem) : List Nat → List Row
  | [] => []
  | n :: rest => items.take n :: sliceRows (items.drop n) rest

/-- Balanced row building from src/build-rows.ts (buildBalancedRows). -/
def buildBalancedRows (sizes : List Nat) (maxColumns : Nat) : List Row :=
  let itemCount := sizes.length
  if itemCount ≤ maxColumns then [enumItems 0 sizes]
  else
    let minRows := (itemCount + maxColumns - 1) / maxColumns
    sliceRows (enumItems 0 sizes) (calculateBalancedDistribution itemCount maxColumns minRows)

/-- Row building from src/build-rows.ts (buildRows): uniform all-1 sequences go to the
balanced path, everything else to the greedy path. -/
def buildRows (sizes : List Nat) (maxColumns : Nat) : List Row :=
  if sizes.isEmpty then []
  else if sizes.all (fun s => s == sizes.headD 0) && sizes.headD 0 == 1 then
    buildBalancedRows sizes maxColumns
  else buildGreedyRows sizes maxColumns

/-- Euclidean gcd from src/unnamed/part_000 (greatestCommonDivisor): a when b is 0,
else the gcd of b and a mod b. -/
def greatestCommonDivisor (a b : Nat) : Nat :=
  if h : b = 0 then a else greatestCommonDivisor b (a % b)
termination_by b
decreasing_by exact Nat.mod_lt _ (Nat.pos_of_ne_zero h)

/-- Pairwise lcm from src/unnamed/part_000 (leastCommonMultiple): a * b over their gcd. -/
def leastCommonMultiple (a b : Nat) : Nat := a * b / greatestCommonDivisor a b

/-- Test that every row length equals the first one, from calculateGridColumns. -/
def allSameLength (lengths : List Nat) : Bool :=
  lengths.all (fun len => len == lengths.headD 0)

/-- Grid resolution from src/unnamed/part_000 (calculateGridColumns): the maximum row
total when all rows share one length, else the iterated pairwise lcm of the row
lengths, folded from 1. -/
def calculateGridColumns (rows : List Row) : Nat :=
  let rowLengths := rows.map List.length
  let rowTotals := rows.map rowTotal
  if allSameLength rowLengths then maxList rowTotals
  else rowLengths.foldl leastCommonMultiple 1

/-- Per-item size specification as read from the data-size attribute: absent or empty,
a semantic label, a token parsing to an integer, or a non-numeric token. -/
inductive SizeSpec where
  | absent
  | small
  | medium
  | large
  | numeric (n : Int)
  | invalid
deriving DecidableEq, Repr

/-- Size parsing from the parse-size module appended to src/src/utils/resolve-to-pixels.ts:
the SIZE_UNITS lookup with default 1, capped by maxColumns; numeric and unrecognized
tokens miss the semantic lookup and fall to the default 1. -/
def parseSize (spec : SizeSpec) (maxColumns : Nat) : Nat :=
  let units :=
    match spec with
    | SizeSpec.small => 1
    | SizeSpec.medium => 2
    | SizeSpec.large => 3
    | _ => 1
  min units maxColumns

/-- Size resolution from src/unnamed/part_000 (resolveDataSize): absent gives 1, semantic
labels give their unit capped by maxColumns, numeric tokens give their value capped by
maxColumns, and non-numeric tokens give 1. -/
def resolveDataSize (spec : SizeSpec) (maxColumns : Nat) : Int :=
  match spec with
  | SizeSpec.absent => 1
  | SizeSpec.small => min 1 (maxColumns : Int)
  | SizeSpec.medium => min 2 (maxColumns : Int)
  | SizeSpec.large => min 3 (maxColumns : Int)
  | SizeSpec.numeric n => min n (maxColumns : Int)
  | SizeSpec.invalid => 1

/-- Columns attribute value: absent or empty, a token parsing to an integer, or a
non-numeric token. -/
inductive ColumnsAttr where
  | absent
  | numeric (n : Int)
  | invalid
deriving DecidableEq, Repr

/-- Columns getter of the SmartGrid element at src/unnamed/part_000 lines 41-46:
default 3, clamped into the range from 1 to MAX_COLUMNS = 12. -/
def columnsGetter (attr : ColumnsAttr) : Int :=
  match attr with
  | ColumnsAttr.absent => max 1 (min 12 3)
  | ColumnsAttr.invalid => max 1 (min 12 3)
  | ColumnsAttr.numeric n => max 1 (min 12 n)

/-- Columns getter of the second SmartGrid element at src/unnamed/part_000 lines 378-383:
default 3, clamped below at 1 only. -/
def columnsGetterLegacy (attr : ColumnsAttr) : Int :=
  match attr with
  | ColumnsAttr.absent => max 1 3
  | ColumnsAttr.invalid => max 1 3
  | ColumnsAttr.numeric n => max 1 n

/-- Candidate of the Distribution Selector as the spec words it: fullRows rows of exactly
M items, then the remainder spread by repeated ceiling over the remaining rows. -/
def specCandidate (n m r f : Nat) : List Nat :=
  List.replicate f m ++ distributeRemaining (n - f * m) (r - f)

/-- Search of the Distribution Selector as the spec words it: accept the first candidate,
largest fullRows first, whose final row passes the 0.34 threshold or which is a single
row; when nothing is accepted fall back to naive greedy chunking, rows of M followed by
one remainder row. -/
def specSearchLoop (n m r : Nat) : Nat → List Nat
  | 0 => List.replicate (n / m) m ++ (if n % m = 0 then [] else [n % m])
  | f + 1 =>
    let c := specCandidate n m r f
    if c.length = 1 ∨ 34 * m ≤ 100 * (c.getLast?.getD 0) then c
    else specSearchLoop n m r f

/-- Distribution Selector as worded in the spec, for item counts above the column count. -/
def specDistribution (n m : Nat) : List Nat :=
  specSearchLoop n m ((n + m - 1) / m) ((n + m - 1) / m)

/-! Helper lemmas about the enumeration and summation functions. -/

theorem enumFromIdx_length {α : Type} (i : Nat) (l : List α) :
    (enumFromIdx i l).length = l.length := by
  induction l generalizing i with
  | nil => rfl
  | cons a rest ih => simp [enumFromIdx, ih]

theorem enumFromIdx_fst_lt {α : Type} (i : Nat) (l : List α) :
    ∀ p ∈ enumFromIdx i l, p.1 < i + l.length := by
  induction l generalizing i with
  | nil => intro p hp; simp [enumFromIdx] at hp
  | cons a rest ih =>
    intro p hp
    simp only [enumFromIdx, List.mem_cons] at hp
    rcases hp with h | h
    · subst h; simp
    · have := ih (i + 1) p h
      simp only [List.length_cons]
      omega

theorem enumFromIdx_snd_mem {α : Type} (i : Nat) (l : List α) :
    ∀ p ∈ enumFromIdx i l, p.2 ∈ l := by
  induction l generalizing i with
  | nil => intro p hp; simp [enumFromIdx] at hp
  | cons a rest ih =>
    intro p hp
    simp only [enumFromIdx, List.mem_cons] at hp
    rcases hp with h | h
    · subst h; simp
    · exact List.mem_cons_of_mem _ (ih (i + 1) p h)

theorem enumItems_length (i : Nat) (sizes : List Nat) :
    (enumItems i sizes).length = sizes.length := by
  induction sizes generalizing i with
  | nil => rfl
  | cons s rest ih => simp [enumItems, ih]

theorem enumItems_map_size (i : Nat) (sizes : List Nat) :
    (enumItems i sizes).map RowItem.size = sizes := by
  induction sizes generalizing i with
  | nil => rfl
  | cons s rest ih => simp [enumItems, ih]

theorem enumItems_size_mem (i : Nat) (sizes : List Nat) :
    ∀ it ∈ enumItems i sizes, it.size ∈ sizes := by
  induction sizes generalizing i with
  | nil => intro it h; simp [enumItems] at h
  | cons s rest ih =>
    intro it h
    simp only [enumItems, List.mem_cons] at h
    rcases h with h | h
    · subst h; simp
    · exact List.mem_cons_of_mem _ (ih (i + 1) it h)

theorem foldl_add_size (l : List RowItem) :
    ∀ init, l.foldl (fun s item => s + item.size) init = init + (l.map RowItem.size).sum := by
  induction l with
  | nil => intro init; simp
  | cons a rest ih =>
    intro init
    simp only [List.foldl_cons, List.map_cons, List.sum_cons]
    rw [ih]
    omega

theorem rowTotal_eq (row : Row) : rowTotal row = (row.map RowItem.size).sum := by
  simpa using foldl_add_size row 0

theorem rowTotal_append (a b : Row) : rowTotal (a ++ b) = rowTotal a + rowTotal b := by
  simp [rowTotal_eq]

theorem rowTotal_single (it : RowItem) : rowTotal [it] = it.size := by
  simp [rowTotal_eq]

theorem rowTotal_enumItems (i : Nat) (sizes : List Nat) :
    rowTotal (enumItems i sizes) = sizes.sum := by
  rw [rowTotal_eq, enumItems_map_size]

theorem length_le_rowTotal (row : Row) (h : ∀ it ∈ row, 1 ≤ it.size) :
    row.length ≤ rowTotal row := by
  induction row with
  | nil => simp [rowTotal_eq]
  | cons a rest ih =>
    have ha := h a (by simp)
    have := ih (fun it hit => h it (List.mem_cons_of_mem _ hit))
    simp only [rowTotal_eq, List.map_cons, List.sum_cons, List.length_cons] at *
    omega

/-! Helper lemmas about bumpAt and distribExtras. -/

theorem bumpAt_length (l : List Nat) (i : Nat) : (bumpAt l i).length = l.length := by
  induction l generalizing i with
  | nil => rfl
  | cons x xs ih =>
    cases i with
    | zero => rfl
    | succ j => simp [bumpAt, ih]

theorem bumpAt_sum (l : List Nat) (i : Nat) (h : i < l.length) :
    (bumpAt l i).sum = l.sum + 1 := by
  induction l generalizing i with
  | nil => simp at h
  | cons x xs ih =>
    cases i with
    | zero => simp [bumpAt]; omega
    | succ j =>
      simp only [bumpAt, List.sum_cons]
      have : j < xs.length := by simpa using h
      rw [ih j this]
      omega

theorem bumpAt_lower (l : List Nat) (i c : Nat) (h : ∀ x ∈ l, c ≤ x) :
    ∀ x ∈ bumpAt l i, c ≤ x := by
  induction l generalizing i with
  | nil => intro x hx; simp [bumpAt] at hx
  | cons y ys ih =>
    cases i with
    | zero =>
      intro x hx
      simp only [bumpAt, List.mem_cons] at hx
      rcases hx with h' | h'
      · have := h y (by simp); omega
      · exact h x (List.mem_cons_of_mem _ h')
    | succ j =>
      intro x hx
      simp only [bumpAt, List.mem_cons] at hx
      rcases hx with h' | h'
      · subst h'; exact h x (by simp)
      · exact ih j (fun z hz => h z (List.mem_cons_of_mem _ hz)) x h'

theorem distribExtras_sum (idxs : List Nat) :
    ∀ (res : List Nat) (r : Int), (∀ i ∈ idxs, i < res.length) →
    (distribExtras res idxs r).sum = res.sum + min r.toNat idxs.length := by
  induction idxs with
  | nil => intro res r _; simp [distribExtras]
  | cons i rest ih =>
    intro res r h
    by_cases hr : r ≤ 0
    · have : r.toNat = 0 := by omega
      simp [distribExtras, hr, this]
    · have hi : i < res.length := h i (by simp)
      have hrest : ∀ j ∈ rest, j < (bumpAt res i).length := by
        intro j hj
        rw [bumpAt_length]
        exact h j (List.mem_cons_of_mem _ hj)
      simp only [distribExtras, if_neg hr]
      rw [ih (bumpAt res i) (r - 1) hrest, bumpAt_sum res i hi]
      have h1 : r.toNat = (r - 1).toNat + 1 := by omega
      simp only [List.length_cons]
      omega

theorem distribExtras_lower (idxs : List Nat) :
    ∀ (res : List Nat) (r : Int) (c : Nat), (∀ x ∈ res, c ≤ x) →
    ∀ x ∈ distribExtras res idxs r, c ≤ x := by
  induction idxs with
  | nil => intro res r c h x hx; exact h x hx
  | cons i rest ih =>
    intro res r c h x hx
    by_cases hr : r ≤ 0
    · simp only [distribExtras, if_pos hr] at hx
      exact h x hx
    · simp only [distribExtras, if_neg hr] at hx
      exact ih (bumpAt res i) (r - 1) c (bumpAt_lower res i c h) x hx

/-! Helper lemmas about the stable descending sort. -/

theorem insertDesc_perm (x : Nat × Nat) (l : List (Nat × Nat)) :
    List.Perm (insertDesc x l) (x :: l) := by
  induction l with
  | nil => simp [insertDesc]
  | cons y ys ih =>
    by_cases hx : x.2 < y.2
    · simp only [insertDesc, if_pos hx]
      exact (List.Perm.cons y ih).trans (List.Perm.swap x y ys)
    · simp [insertDesc, if_neg hx]

theorem sortDesc_perm (l : List (Nat × Nat)) : List.Perm (sortDesc l) l := by
  induction l with
  | nil => simp [sortDesc]
  | cons x xs ih =>
    exact (insertDesc_perm x (sortDesc xs)).trans (List.Perm.cons x ih)

theorem sortDesc_length (l : List (Nat × Nat)) : (sortDesc l).length = l.length :=
  (sortDesc_perm l).length_eq

theorem sortDesc_mem (l : List (Nat × Nat)) (p : Nat × Nat) (h : p ∈ sortDesc l) : p ∈ l :=
  (sortDesc_perm l).mem_iff.mp h

/-! Arithmetic of the largest-remainder distribution. -/

theorem sum_map_div_mod (l : List Nat) (T : Nat) :
    (l.map (fun a => a / T)).sum * T + (l.map (fun a => a % T)).sum = l.sum := by
  induction l with
  | nil => simp
  | cons a rest ih =>
    simp only [List.map_cons, List.sum_cons]
    calc (a / T + (rest.map (fun a => a / T)).sum) * T + (a % T + (rest.map (fun a => a % T)).sum)
        = (a / T * T + a % T)
          + ((rest.map (fun a => a / T)).sum * T + (rest.map (fun a => a % T)).sum) := by ring
      _ = a + rest.sum := by rw [Nat.div_add_mod', ih]

theorem distributeColumns_sum (row : Row) (R : Nat)
    (hne : row ≠ []) (hsz : ∀ it ∈ row, 1 ≤ it.size) (hR : rowTotal row ≤ R) :
    (distributeColumns row R (rowTotal row)).sum = R := by
  set T := rowTotal row with hT_def
  have hn_pos : 0 < row.length := List.length_pos.mpr hne
  have hnT : row.length ≤ T := length_le_rowTotal row hsz
  have hT : 0 < T := lt_of_lt_of_le hn_pos hnT
  have hfloor : (row.map (fun it => max 1 (it.size * R / T)))
      = row.map (fun it => it.size * R / T) := by
    apply List.map_congr_left
    intro it hit
    have h1 : T ≤ it.size * R := by
      calc T ≤ R := hR
        _ ≤ it.size * R := Nat.le_mul_of_pos_left R (hsz it hit)
    have h2 : 1 ≤ it.size * R / T := (Nat.one_le_div_iff hT).mpr h1
    omega
  set A := (row.map (fun it => it.size * R / T)).sum with hA_def
  set Smod := (row.map (fun it => it.size * R % T)).sum with hS_def
  have key : A * T + Smod = T * R := by
    have h1 := sum_map_div_mod (row.map (fun it => it.size * R)) T
    simp only [List.map_map, Function.comp_def] at h1
    have h2 : (row.map (fun it => it.size * R)).sum = (row.map RowItem.size).sum * R := by
      rw [← List.sum_map_mul_right]
    rw [← hA_def, ← hS_def] at h1
    rw [h1, h2, ← rowTotal_eq, ← hT_def, Nat.mul_comm]
  have hSmod : Smod ≤ row.length * (T - 1) := by
    have hb : ∀ x ∈ row.map (fun it => it.size * R % T), x ≤ T - 1 := by
      intro x hx
      simp only [List.mem_map] at hx
      obtain ⟨it, _, rfl⟩ := hx
      have := Nat.mod_lt (it.size * R) hT
      omega
    have h := List.sum_le_card_nsmul (row.map (fun it => it.size * R % T)) (T - 1) hb
    simpa [smul_eq_mul, ← hS_def] using h
  have hA_le : A ≤ R := by
    have h1 : A * T ≤ R * T := by
      calc A * T ≤ A * T + Smod := Nat.le_add_right _ _
        _ = T * R := key
        _ = R * T := Nat.mul_comm T R
    exact Nat.le_of_mul_le_mul_right h1 hT
  have hR_lt : R < A + row.length := by
    have h2 : Smod < row.length * T := by
      have h3 : row.length * (T - 1) < row.length * T :=
        mul_lt_mul_of_pos_left (by omega) hn_pos
      omega
    have h4 : R * T < (A + row.length) * T := by
      calc R * T = T * R := Nat.mul_comm R T
        _ = A * T + Smod := key.symm
        _ < A * T + row.length * T := by omega
        _ = (A + row.length) * T := (Nat.add_mul _ _ _).symm
    exact lt_of_mul_lt_mul_right h4 (Nat.zero_le T)
  have hidx : ∀ i ∈ (sortDesc (enumFromIdx 0 (row.map (fun it => it.size * R % T)))).map
      Prod.fst, i < (row.map (fun it => it.size * R / T)).length := by
    intro i hi
    simp only [List.mem_map] at hi
    obtain ⟨p, hp, rfl⟩ := hi
    have hmem := sortDesc_mem _ p hp
    have := enumFromIdx_fst_lt 0 _ p hmem
    simpa using this
  have hlen : ((sortDesc (enumFromIdx 0 (row.map (fun it => it.size * R % T)))).map
      Prod.fst).length = row.length := by
    simp [sortDesc_length, enumFromIdx_length]
  simp only [distributeColumns]
  rw [hfloor]
  rw [distribExtras_sum _ _ _ hidx, hlen, ← hA_def]
  omega

/-- Claim C1: the claim as stated is false on the code. The row of three unit-size-1
items at grid resolution 2 meets every hypothesis of the claim (non-empty row, unit
sizes at least 1, resolution at least 1), yet the spans computed by calculateSpans
under equal-extra sum to 3, not 2: the floors are clamped up to 1 each and the
negative remainder distributes nothing. -/
theorem c1_spanSum_counterexample :
    (∀ it ∈ ([⟨0, 1⟩, ⟨1, 1⟩, ⟨2, 1⟩] : Row), 1 ≤ it.size) ∧ (1 : Nat) ≤ 2 ∧
    ([⟨0, 1⟩, ⟨1, 1⟩, ⟨2, 1⟩] : Row) ≠ [] ∧
    (calculateSpans [[⟨0, 1⟩, ⟨1, 1⟩, ⟨2, 1⟩]] 2 FillMode.equalExtra Option.none).sum ≠ 2 := by
  decide

/-- Claim C1 (amended): for every non-empty row of items with unit sizes at least 1 and
every grid resolution at least the row's unit-size total, the spans computed under the
fill-and-expand (equal-extra) policy by the row-level span calculation (and so by
distributeColumns) sum exactly to the grid resolution, never more, never less. -/
theorem c1_spanSum (row : Row) (R : Nat) (ref : Option Nat)
    (hne : row ≠ []) (hsz : ∀ it ∈ row, 1 ≤ it.size) (hR : rowTotal row ≤ R) :
    (calculateRowSpans row R FillMode.equalExtra ref).sum = R := by
  have hT : ¬ rowTotal row = 0 := by
    have hn := List.length_pos.mpr hne
    have := length_le_rowTotal row hsz
    omega
  simp only [calculateRowSpans, if_neg hT]
  exact distributeColumns_sum row R hne hsz hR

/-- Claim C1 witness: the skewed mix of unit sizes 3 and 1 at resolution 6 sums to
exactly 6. -/
theorem c1_spanSum_witness :
    (calculateRowSpans [⟨0, 3⟩, ⟨1, 1⟩] 6 FillMode.equalExtra Option.none).sum = 6 :=
  c1_spanSum [⟨0, 3⟩, ⟨1, 1⟩] 6 Option.none (by decide) (by decide) (by decide)

/-! Positivity of spans. -/

theorem calculateRowSpans_pos (row : Row) (R : Nat) (mode : FillMode) (ref : Option Nat)
    (h : mode = FillMode.equalExtra ∨ ref ≠ Option.none) :
    ∀ s ∈ calculateRowSpans row R mode ref, 1 ≤ s := by
  intro s hs
  cases mode with
  | equalExtra =>
    simp only [calculateRowSpans] at hs
    by_cases h0 : rowTotal row = 0
    · rw [if_pos h0] at hs
      simp only [List.mem_map] at hs
      obtain ⟨it, _, rfl⟩ := hs
      exact le_refl 1
    · rw [if_neg h0] at hs
      simp only [distributeColumns] at hs
      refine distribExtras_lower _ _ _ 1 ?_ s hs
      intro x hx
      simp only [List.mem_map] at hx
      obtain ⟨it, _, rfl⟩ := hx
      omega
  | none =>
    cases ref with
    | none =>
      rcases h with h | h
      · exact absurd h (by simp)
      · exact absurd rfl h
    | some r =>
      simp only [calculateRowSpans, List.mem_map] at hs
      obtain ⟨it, _, rfl⟩ := hs
      omega

/-- Claim C9: under the filling (equal-extra) policy, a row whose unit total is 0 gets
span 1 for every item (one implicit unit per item), and the scale-factor branch
(distributeColumns, which divides by the row total) is reached exactly when the row
total is non-zero. -/
theorem c9_zeroTotal (row : Row) (R : Nat) (ref : Option Nat) :
    (rowTotal row = 0 →
      calculateRowSpans row R FillMode.equalExtra ref = List.replicate row.length 1) ∧
    (rowTotal row ≠ 0 →
      calculateRowSpans row R FillMode.equalExtra ref
        = distributeColumns row R (rowTotal row)) := by
  constructor
  · intro h
    simp only [calculateRowSpans, if_pos h]
    induction row with
    | nil => rfl
    | cons a rest ih => simp_all [List.replicate_succ]
  · intro h
    simp [calculateRowSpans, if_neg h]

/-- Claim C9 witness: a two-item row of zero unit sizes at resolution 4 yields spans 1. -/
theorem c9_zeroTotal_witness :
    calculateRowSpans [⟨0, 0⟩, ⟨1, 0⟩] 4 FillMode.equalExtra Option.none = [1, 1] := by
  have h := (c9_zeroTotal [⟨0, 0⟩, ⟨1, 0⟩] 4 Option.none).1 (by decide)
  simpa using h

/-- Claim C10: every span produced by calculateSpans under the equal-extra fill policy,
including the fill-last none reference-sizing path for the last row, is at least 1;
no item ever receives a zero span. -/
theorem c10_spanAtLeastOne (rows : List Row) (R : Nat) (fillLast : Option FillMode) :
    ∀ s ∈ calculateSpans rows R FillMode.equalExtra fillLast, 1 ≤ s := by
  intro s hs
  by_cases hrows : rows.isEmpty
  · simp [calculateSpans, hrows] at hs
  · simp only [calculateSpans, if_neg hrows] at hs
    rw [List.mem_flatten] at hs
    obtain ⟨l, hl, hsl⟩ := hs
    simp only [List.mem_map] at hl
    obtain ⟨p, hp, rfl⟩ := hl
    refine calculateRowSpans_pos _ _ _ _ ?_ s hsl
    by_cases hlast : p.1 = rows.length - 1
    · cases hfl : fillLast with
      | none => left; simp [hlast, hfl]
      | some fm =>
        cases fm with
        | equalExtra => left; simp [hlast, hfl]
        | none => right; simp [hlast, hfl]
    · left; simp [hlast]

/-- Claim C10 witness: in the skewed row of unit sizes 3 and 1 at resolution 6 the
span 5 occurs and is at least 1. -/
theorem c10_spanAtLeastOne_witness : (1 : Nat) ≤ 5 :=
  c10_spanAtLeastOne [[⟨0, 3⟩, ⟨1, 1⟩]] 6 Option.none 5 (by decide)

/-! Ceiling division facts for the tail distribution. -/

theorem ceilDiv_le_iff (a k c : Nat) : (a + k) / (k + 1) ≤ c ↔ a ≤ c * (k + 1) := by
  rw [Nat.div_le_iff_le_mul_add_pred (Nat.succ_pos k)]
  rw [Nat.succ_sub_one]
  rw [Nat.mul_comm (k + 1) c]
  exact Nat.add_le_add_iff_right

theorem ceil_mul_ge (a k : Nat) : a ≤ ((a + k) / (k + 1)) * (k + 1) := by
  have h1 := Nat.div_add_mod (a + k) (k + 1)
  have h2 : (a + k) % (k + 1) < k + 1 := Nat.mod_lt _ (by omega)
  have h3 : (k + 1) * ((a + k) / (k + 1)) = ((a + k) / (k + 1)) * (k + 1) :=
    Nat.mul_comm _ _
  rw [h3] at h1
  omega

/-! Properties of distributeRemaining: it preserves the total, keeps every row size
between any lower bound d with d * rows <= items and any upper bound c with
items <= c * rows, and produces a non-increasing sequence. -/

theorem distributeRemaining_sum : ∀ k items, 1 ≤ k → (distributeRemaining items k).sum = items := by
  intro k
  induction k with
  | zero => intro items h; omega
  | succ j ih =>
    intro items _
    simp only [distributeRemaining, List.sum_cons]
    cases j with
    | zero => simp [distributeRemaining]
    | succ j' =>
      rw [ih (items - (items + (j' + 1)) / (j' + 1 + 1)) (by omega)]
      have hle : (items + (j' + 1)) / (j' + 1 + 1) ≤ items := by
        apply (ceilDiv_le_iff items (j' + 1) items).mpr
        exact Nat.le_mul_of_pos_right items (by omega)
      omega

theorem distributeRemaining_upper : ∀ k items c, items ≤ c * k →
    ∀ x ∈ distributeRemaining items k, x ≤ c := by
  intro k
  induction k with
  | zero => intro items c h x hx; simp [distributeRemaining] at hx
  | succ j ih =>
    intro items c h x hx
    simp only [distributeRemaining, List.mem_cons] at hx
    rcases hx with rfl | hx
    · exact (ceilDiv_le_iff items j c).mpr h
    · apply ih (items - (items + j) / (j + 1)) c ?_ x hx
      have h1 := ceil_mul_ge items j
      have hhead : (items + j) / (j + 1) ≤ c := (ceilDiv_le_iff items j c).mpr h
      have h2 : (items + j) / (j + 1) * (j + 1) = (items + j) / (j + 1) * j
          + (items + j) / (j + 1) := Nat.mul_succ _ _
      have h3 : (items + j) / (j + 1) * j ≤ c * j := Nat.mul_le_mul_right j hhead
      omega

theorem distributeRemaining_lower : ∀ k items d, d * k ≤ items →
    ∀ x ∈ distributeRemaining items k, d ≤ x := by
  intro k
  induction k with
  | zero => intro items d h x hx; simp [distributeRemaining] at hx
  | succ j ih =>
    intro items d h x hx
    simp only [distributeRemaining, List.mem_cons] at hx
    have hdj : d * j ≤ items := by
      calc d * j ≤ d * (j + 1) := Nat.mul_le_mul_left d (by omega)
        _ ≤ items := h
    rcases hx with rfl | hx
    · exact (Nat.le_div_iff_mul_le (by omega)).mpr (le_trans h (Nat.le_add_right items j))
    · apply ih (items - (items + j) / (j + 1)) d ?_ x hx
      have hceil_ub : (items + j) / (j + 1) ≤ items - d * j := by
        apply (ceilDiv_le_iff items j (items - d * j)).mpr
        have hsub : (items - d * j) * (j + 1) = items * (j + 1) - d * j * (j + 1) :=
          Nat.sub_mul _ _ _
        have e1 : items * (j + 1) = items * j + items := Nat.mul_succ items j
        have e2 : d * j * (j + 1) = d * (j + 1) * j := by ring
        have hmul : d * (j + 1) * j ≤ items * j := Nat.mul_le_mul_right j h
        omega
      omega

theorem distributeRemaining_chain : ∀ k items,
    List.Chain' (fun a b => b ≤ a) (distributeRemaining items k) := by
  intro k
  induction k with
  | zero => intro items; simp [distributeRemaining]
  | succ j ih =>
    intro items
    simp only [distributeRemaining]
    rw [List.chain'_cons']
    refine ⟨?_, ih _⟩
    intro y hy
    cases j with
    | zero => simp [distributeRemaining] at hy
    | succ j' =>
      simp only [distributeRemaining, List.head?_cons, Option.mem_def, Option.some.injEq] at hy
      subst hy
      apply (ceilDiv_le_iff _ j' _).mpr
      have h1 := ceil_mul_ge items (j' + 1)
      have h2 : (items + (j' + 1)) / (j' + 1 + 1) * (j' + 1 + 1)
          = (items + (j' + 1)) / (j' + 1 + 1) * (j' + 1)
            + (items + (j' + 1)) / (j' + 1 + 1) := Nat.mul_succ _ _
      omega

theorem distributeRemaining_length : ∀ k items, (distributeRemaining items k).length = k := by
  intro k
  induction k with
  | zero => intro items; rfl
  | succ j ih => intro items; simp [distributeRemaining, ih]

theorem distributeRemaining_ne_nil (k items : Nat) (hk : 1 ≤ k) :
    distributeRemaining items k ≠ [] := by
  cases k with
  | zero => omega
  | succ j => simp [distributeRemaining]

/-! Characterization of the greedy fallback as naive chunking. -/

theorem fillGreedy_chunks (M : Nat) (hM : 1 ≤ M) : ∀ N,
    fillGreedy N M = List.replicate (N / M) M ++ (if N % M = 0 then [] else [N % M]) := by
  intro N
  induction N using Nat.strong_induction_on with
  | _ N ih =>
    rw [fillGreedy]
    by_cases h0 : N = 0
    · subst h0; simp
    · rw [dif_neg (by omega)]
      by_cases hNM : M ≤ N
      · have hmin : min N M = M := by omega
        rw [hmin]
        rw [ih (N - M) (by omega)]
        rw [Nat.div_eq_sub_div (by omega) hNM, Nat.mod_eq_sub_mod hNM]
        simp [List.replicate_succ]
      · have hmin : min N M = N := by omega
        rw [hmin]
        have h1 : N - N = 0 := by omega
        rw [h1]
        rw [fillGreedy]
        rw [dif_pos (Or.inl rfl)]
        rw [Nat.div_eq_of_lt (by omega), Nat.mod_eq_of_lt (by omega)]
        simp [if_neg h0]

theorem fillGreedy_sum (N M : Nat) (hM : 1 ≤ M) : (fillGreedy N M).sum = N := by
  rw [fillGreedy_chunks M hM N]
  have hdm := Nat.div_add_mod' N M
  by_cases h : N % M = 0
  · rw [if_pos h]
    simp only [List.append_nil, List.sum_replicate, smul_eq_mul]
    omega
  · rw [if_neg h]
    simp only [List.sum_append, List.sum_replicate, smul_eq_mul, List.sum_cons, List.sum_nil]
    omega

theorem fillGreedy_mem (N M : Nat) (hM : 1 ≤ M) :
    ∀ x ∈ fillGreedy N M, 1 ≤ x ∧ x ≤ M := by
  rw [fillGreedy_chunks M hM N]
  intro x hx
  have hmod : N % M < M := Nat.mod_lt _ (by omega)
  rcases List.mem_append.mp hx with h | h
  · have := List.eq_of_mem_replicate h
    omega
  · by_cases hz : N % M = 0
    · simp [hz] at h
    · simp [hz] at h
      omega

/-! The candidate search loop: bounds on considered candidates and its invariant. -/

theorem candidate_bounds (N M R f : Nat) (hM : 1 ≤ M) (hfR : f < R)
    (hlow : (R - 1) * M + 1 ≤ N) (hRM : N ≤ R * M) :
    f * M + 1 ≤ N ∧ R - f ≤ N - f * M ∧ N - f * M ≤ (R - f) * M := by
  have hfM : f * M ≤ (R - 1) * M := Nat.mul_le_mul_right M (by omega)
  have e1 : (R - 1) * M = (R - 1 - f) * M + f * M := by
    rw [← Nat.add_mul]
    congr 1
    omega
  have h2 : R - 1 - f ≤ (R - 1 - f) * M := Nat.le_mul_of_pos_right _ (by omega)
  have e2 : R * M = (R - f) * M + f * M := by
    rw [← Nat.add_mul]
    congr 1
    omega
  omega

theorem ceil_le_iff_general (a r c : Nat) (hr : 1 ≤ r) : (a + r - 1) / r ≤ c ↔ a ≤ c * r := by
  obtain ⟨k, rfl⟩ : ∃ k, r = k + 1 := ⟨r - 1, by omega⟩
  have h : a + (k + 1) - 1 = a + k := by omega
  rw [h]
  exact ceilDiv_le_iff a k c

theorem tryDistribution_eq (N M R f : Nat) (hM : 1 ≤ M) (hfR : f < R)
    (hlow : (R - 1) * M + 1 ≤ N) (hRM : N ≤ R * M) :
    tryDistribution N M R f
      = List.replicate f M ++ distributeRemaining (N - f * M) (R - f) := by
  obtain ⟨h1, h2, h3⟩ := candidate_bounds N M R f hM hfR hlow hRM
  have h3' : N - f * M ≤ M * (R - f) := by
    rw [Nat.mul_comm M (R - f)]
    exact h3
  simp only [tryDistribution]
  rw [if_neg (by omega)]
  rw [if_neg ?_]
  intro hcon
  have := (ceil_le_iff_general (N - f * M) (R - f) M (by omega)).mpr h3'
  omega

theorem isBalanced_iff (rows : List Nat) (cols : Nat) (hne : rows ≠ []) :
    isBalanced rows cols = true
      ↔ (rows.length = 1 ∨ 34 * cols ≤ 100 * (rows.getLast?.getD 0)) := by
  simp only [isBalanced]
  rw [if_neg (by simpa [List.isEmpty_iff] using hne)]
  simp [Bool.or_eq_true, beq_iff_eq, decide_eq_true_iff]

theorem candidate_props (N M R f : Nat) (hM : 1 ≤ M) (hfR : f < R)
    (hlow : (R - 1) * M + 1 ≤ N) (hRM : N ≤ R * M) :
    (List.replicate f M ++ distributeRemaining (N - f * M) (R - f)).sum = N
    ∧ ∀ x ∈ List.replicate f M ++ distributeRemaining (N - f * M) (R - f),
        1 ≤ x ∧ x ≤ M := by
  obtain ⟨h1, h2, h3⟩ := candidate_bounds N M R f hM hfR hlow hRM
  constructor
  · rw [List.sum_append, List.sum_replicate, smul_eq_mul,
      distributeRemaining_sum (R - f) (N - f * M) (by omega)]
    omega
  · intro x hx
    rcases List.mem_append.mp hx with h | h
    · have := List.eq_of_mem_replicate h
      omega
    · constructor
      · exact distributeRemaining_lower (R - f) (N - f * M) 1 (by omega) x h
      · refine distributeRemaining_upper (R - f) (N - f * M) M ?_ x h
        rw [Nat.mul_comm M (R - f)]
        exact h3

theorem searchLoop_props (N M R : Nat) (hM : 1 ≤ M)
    (hlow : (R - 1) * M + 1 ≤ N) (hRM : N ≤ R * M) :
    ∀ f, f ≤ R → (searchLoop N M R f).sum = N
      ∧ ∀ x ∈ searchLoop N M R f, 1 ≤ x ∧ x ≤ M := by
  intro f
  induction f with
  | zero =>
    intro _
    simp only [searchLoop]
    exact ⟨fillGreedy_sum N M hM, fillGreedy_mem N M hM⟩
  | succ g ih =>
    intro hgR
    simp only [searchLoop]
    by_cases hcond : tryDistribution N M R g ≠ []
        ∧ isBalanced (tryDistribution N M R g) M = true
    · rw [if_pos hcond]
      rw [tryDistribution_eq N M R g hM (by omega) hlow hRM]
      exact candidate_props N M R g hM (by omega) hlow hRM
    · rw [if_neg hcond]
      exact ih (by omega)

theorem distributionLoop_eq_searchLoop (N M R : Nat) (hM : 1 ≤ M)
    (hlow : (R - 1) * M + 1 ≤ N) (hRM : N ≤ R * M) :
    ∀ f, f ≤ R → distributionLoop N M R f = searchLoop N M R f := by
  intro f
  induction f with
  | zero => intro _; rfl
  | succ g ih =>
    intro hgR
    have hgR' : g < R := by omega
    have htry := tryDistribution_eq N M R g hM hgR' hlow hRM
    obtain ⟨h1, h2, h3⟩ := candidate_bounds N M R g hM hgR' hlow hRM
    have h3' : N - g * M ≤ M * (R - g) := by
      rw [Nat.mul_comm M (R - g)]
      exact h3
    have hipr : (N - g * M + (R - g) - 1) / (R - g) ≤ M :=
      (ceil_le_iff_general (N - g * M) (R - g) M (by omega)).mpr h3'
    have hne : List.replicate g M ++ distributeRemaining (N - g * M) (R - g) ≠ [] := by
      have hd := distributeRemaining_ne_nil (R - g) (N - g * M) (by omega)
      simp [hd]
    simp only [distributionLoop, searchLoop]
    rw [if_neg (show ¬ (R - g = 0) by omega)]
    rw [if_pos hipr]
    rw [htry]
    by_cases hacc : 34 * M ≤ 100 * ((List.replicate g M
          ++ distributeRemaining (N - g * M) (R - g)).getLast?.getD 0)
        ∨ (List.replicate g M ++ distributeRemaining (N - g * M) (R - g)).length = 1
    · rw [if_pos hacc]
      rw [if_pos ⟨hne, (isBalanced_iff _ M hne).mpr (by tauto)⟩]
    · rw [if_neg hacc]
      rw [if_neg ?_]
      · exact ih (by omega)
      · rintro ⟨hne', hbal⟩
        have := (isBalanced_iff _ M hne).mp hbal
        tauto

theorem minRows_facts (N M : Nat) (hM : 1 ≤ M) (hN : 1 ≤ N) :
    ((N + M - 1) / M - 1) * M + 1 ≤ N ∧ N ≤ ((N + M - 1) / M) * M := by
  have hR_eq : (N + M - 1) / M = (N - 1) / M + 1 := by
    have e : N + M - 1 = (N - 1) + M := by omega
    rw [e, Nat.add_div_right _ (by omega)]
  have hdm := Nat.div_add_mod' (N - 1) M
  have hmodlt : (N - 1) % M < M := Nat.mod_lt _ (by omega)
  constructor
  · rw [hR_eq]
    simp only [Nat.add_sub_cancel]
    omega
  · rw [hR_eq, Nat.add_mul, Nat.one_mul]
    omega

theorem calculateBalancedDistribution_props (N M : Nat) (hM : 1 ≤ M) :
    (calculateBalancedDistribution N M ((N + M - 1) / M)).sum = N
    ∧ ∀ x ∈ calculateBalancedDistribution N M ((N + M - 1) / M), 1 ≤ x ∧ x ≤ M := by
  by_cases h0 : N = 0
  · subst h0
    have hR : (0 + M - 1) / M = 0 := Nat.div_eq_of_lt (by omega)
    simp only [calculateBalancedDistribution, hR, searchLoop]
    exact ⟨fillGreedy_sum 0 M hM, fillGreedy_mem 0 M hM⟩
  · obtain ⟨hlow, hRM⟩ := minRows_facts N M hM (by omega)
    exact searchLoop_props N M ((N + M - 1) / M) hM hlow hRM _ (le_refl _)

theorem calculateRowDistribution_props (N M : Nat) (hM : 1 ≤ M) :
    (calculateRowDistribution N M).sum = N
    ∧ ∀ x ∈ calculateRowDistribution N M, 1 ≤ x ∧ x ≤ M := by
  by_cases h0 : N = 0
  · subst h0
    simp [calculateRowDistribution]
  · by_cases hNM : N ≤ M
    · simp only [calculateRowDistribution, if_neg h0, if_neg (show ¬ M = 0 by omega),
        if_pos hNM]
      refine ⟨by simp, ?_⟩
      intro x hx
      simp only [List.mem_singleton] at hx
      subst hx
      omega
    · simp only [calculateRowDistribution, if_neg h0, if_neg (show ¬ M = 0 by omega),
        if_neg hNM]
      obtain ⟨hlow, hRM⟩ := minRows_facts N M hM (by omega)
      rw [distributionLoop_eq_searchLoop N M ((N + M - 1) / M) hM hlow hRM _ (le_refl _)]
      exact searchLoop_props N M ((N + M - 1) / M) hM hlow hRM _ (le_refl _)

theorem calculateBalancedDistribution_single (N M : Nat) (hM : 1 ≤ M) (hN : 1 ≤ N)
    (hNM : N ≤ M) : calculateBalancedDistribution N M ((N + M - 1) / M) = [N] := by
  have hR : (N + M - 1) / M = 1 := Nat.div_eq_of_lt_le (by omega) (by omega)
  rw [hR]
  have htry : tryDistribution N M 1 0 = [N] := by
    simp only [tryDistribution, Nat.zero_mul, Nat.sub_zero, Nat.add_sub_cancel, Nat.div_one]
    rw [if_neg (by omega), if_neg (by omega)]
    simp [distributeRemaining]
  simp only [calculateBalancedDistribution, searchLoop]
  rw [htry]
  rw [if_pos ⟨List.cons_ne_nil N [], by simp [isBalanced]⟩]

/-- Claim C2: for every item count N and maximum columns M with M at least 1, both
Distribution Selector implementations (calculateRowDistribution from
src/utils/distribute.ts, and calculateBalancedDistribution from src/build-rows.ts at
its call-site minRows, the ceiling of N over M) return a sequence of positive integers,
each at most M, summing exactly to N; the count N = 0 yields the empty sequence, and
1 <= N <= M yields the single row of size N. -/
theorem c2_distributionCompleteness (N M : Nat) (hM : 1 ≤ M) :
    (calculateRowDistribution N M).sum = N
    ∧ (∀ x ∈ calculateRowDistribution N M, 1 ≤ x ∧ x ≤ M)
    ∧ (calculateBalancedDistribution N M ((N + M - 1) / M)).sum = N
    ∧ (∀ x ∈ calculateBalancedDistribution N M ((N + M - 1) / M), 1 ≤ x ∧ x ≤ M)
    ∧ (N = 0 → calculateRowDistribution N M = []
        ∧ calculateBalancedDistribution N M ((N + M - 1) / M) = [])
    ∧ (1 ≤ N → N ≤ M → calculateRowDistribution N M = [N]
        ∧ calculateBalancedDistribution N M ((N + M - 1) / M) = [N]) := by
  refine ⟨(calculateRowDistribution_props N M hM).1, (calculateRowDistribution_props N M hM).2,
    (calculateBalancedDistribution_props N M hM).1,
    (calculateBalancedDistribution_props N M hM).2, ?_, ?_⟩
  · intro h0
    subst h0
    refine ⟨by simp [calculateRowDistribution], ?_⟩
    have hR : (0 + M - 1) / M = 0 := Nat.div_eq_of_lt (by omega)
    simp only [calculateBalancedDistribution, hR, searchLoop]
    rw [fillGreedy]
    simp
  · intro hN hNM
    refine ⟨?_, calculateBalancedDistribution_single N M hM hN hNM⟩
    simp only [calculateRowDistribution, if_neg (show ¬ N = 0 by omega),
      if_neg (show ¬ M = 0 by omega), if_pos hNM]

/-- Claim C2 witness: the worked case of 7 items in at most 3 columns sums to 7. -/
theorem c2_distributionCompleteness_witness : (calculateRowDistribution 7 3).sum = 7 :=
  (c2_distributionCompleteness 7 3 (by decide)).1

theorem ceil_mul_ge_general (a r : Nat) (hr : 1 ≤ r) : a ≤ ((a + r - 1) / r) * r := by
  obtain ⟨k, rfl⟩ : ∃ k, r = k + 1 := ⟨r - 1, by omega⟩
  have e : a + (k + 1) - 1 = a + k := by omega
  rw [e]
  exact ceil_mul_ge a k

theorem searchLoop_eq_spec (N M R : Nat) (hM : 1 ≤ M)
    (hlow : (R - 1) * M + 1 ≤ N) (hRM : N ≤ R * M) :
    ∀ f, f ≤ R → searchLoop N M R f = specSearchLoop N M R f := by
  intro f
  induction f with
  | zero =>
    intro _
    simp only [searchLoop, specSearchLoop]
    exact fillGreedy_chunks M hM N
  | succ g ih =>
    intro hgR
    have hgR' : g < R := by omega
    have htry := tryDistribution_eq N M R g hM hgR' hlow hRM
    have hne : List.replicate g M ++ distributeRemaining (N - g * M) (R - g) ≠ [] := by
      have hd := distributeRemaining_ne_nil (R - g) (N - g * M) (by omega)
      simp [hd]
    simp only [searchLoop, specSearchLoop, specCandidate]
    rw [htry]
    by_cases hacc : (List.replicate g M ++ distributeRemaining (N - g * M) (R - g)).length = 1
        ∨ 34 * M ≤ 100 * ((List.replicate g M
            ++ distributeRemaining (N - g * M) (R - g)).getLast?.getD 0)
    · rw [if_pos ⟨hne, (isBalanced_iff _ M hne).mpr hacc⟩, if_pos hacc]
    · rw [if_neg ?_, if_neg hacc]
      · exact ih (by omega)
      · rintro ⟨hne', hbal⟩
        exact hacc ((isBalanced_iff _ M hne).mp hbal)

theorem candidate_tail_props (N M R f : Nat) (hM : 1 ≤ M) (hfR : f < R)
    (hlow : (R - 1) * M + 1 ≤ N) (hRM : N ≤ R * M) :
    List.Chain' (fun a b => b ≤ a) (distributeRemaining (N - f * M) (R - f))
    ∧ ∀ x ∈ distributeRemaining (N - f * M) (R - f),
        ∀ y ∈ distributeRemaining (N - f * M) (R - f), x ≤ y + 1 := by
  obtain ⟨h1, h2, h3⟩ := candidate_bounds N M R f hM hfR hlow hRM
  refine ⟨distributeRemaining_chain (R - f) (N - f * M), ?_⟩
  set a := N - f * M with ha
  set k := R - f with hk
  have hk1 : 1 ≤ k := by omega
  have hceil_lb : a ≤ ((a + k - 1) / k) * k := ceil_mul_ge_general a k hk1
  have hceil_ub : ((a + k - 1) / k) * k ≤ a + k - 1 := Nat.div_mul_le_self _ _
  have hsubmul : ((a + k - 1) / k - 1) * k = ((a + k - 1) / k) * k - 1 * k :=
    Nat.sub_mul _ _ _
  have hub : ∀ x ∈ distributeRemaining a k, x ≤ (a + k - 1) / k :=
    distributeRemaining_upper k a ((a + k - 1) / k) (by omega)
  have hlb : ∀ x ∈ distributeRemaining a k, (a + k - 1) / k - 1 ≤ x :=
    distributeRemaining_lower k a ((a + k - 1) / k - 1) (by omega)
  intro x hx y hy
  have hx1 := hub x hx
  have hy1 := hlb y hy
  omega

/-- Claim C3: for all N > M >= 1, calculateRowDistribution equals the spec-worded
search: candidates fullRows from the ceiling of N over M minus 1 down to 0, each being
fullRows rows of exactly M followed by the remainder spread by repeated ceiling; the
first candidate whose final row r satisfies 100 r >= 34 M (the exact form of
r / M >= 0.34) or whose row count is 1 is returned, and naive greedy chunking (rows of
M, then the remainder) is the fallback. Moreover every considered candidate tail is
non-increasing with sizes differing by at most 1. -/
theorem c3_searchAlgorithm (N M : Nat) (hM : 1 ≤ M) (hNM : M < N) :
    calculateRowDistribution N M = specDistribution N M
    ∧ ∀ f < (N + M - 1) / M,
        List.Chain' (fun a b => b ≤ a)
          (distributeRemaining (N - f * M) ((N + M - 1) / M - f))
        ∧ ∀ x ∈ distributeRemaining (N - f * M) ((N + M - 1) / M - f),
            ∀ y ∈ distributeRemaining (N - f * M) ((N + M - 1) / M - f), x ≤ y + 1 := by
  obtain ⟨hlow, hRM⟩ := minRows_facts N M hM (by omega)
  constructor
  · simp only [calculateRowDistribution, specDistribution,
      if_neg (show ¬ N = 0 by omega), if_neg (show ¬ M = 0 by omega),
      if_neg (show ¬ N ≤ M by omega)]
    rw [distributionLoop_eq_searchLoop N M _ hM hlow hRM _ (le_refl _)]
    exact searchLoop_eq_spec N M _ hM hlow hRM _ (le_refl _)
  · intro f hf
    exact candidate_tail_props N M _ f hM hf hlow hRM

/-- Claim C3 witness: the search and the spec algorithm agree at 7 items, 3 columns. -/
theorem c3_searchAlgorithm_witness : calculateRowDistribution 7 3 = specDistribution 7 3 :=
  (c3_searchAlgorithm 7 3 (by decide) (by decide)).1

/-! The source gcd and lcm agree with the library ones. -/

theorem greatestCommonDivisor_eq_gcd : ∀ b a, greatestCommonDivisor a b = Nat.gcd a b := by
  intro b
  induction b using Nat.strong_induction_on with
  | _ b ih =>
    intro a
    rw [greatestCommonDivisor]
    by_cases hb : b = 0
    · subst hb
      simp
    · rw [dif_neg hb]
      rw [ih (a % b) (Nat.mod_lt _ (Nat.pos_of_ne_zero hb)) b]
      rw [Nat.gcd_comm b (a % b), ← Nat.gcd_rec b a, Nat.gcd_comm b a]

theorem leastCommonMultiple_eq_lcm (a b : Nat) : leastCommonMultiple a b = Nat.lcm a b := by
  rw [leastCommonMultiple, greatestCommonDivisor_eq_gcd b a]
  rfl

theorem leastCommonMultiple_funext : leastCommonMultiple = fun a b => Nat.lcm a b := by
  funext a b
  exact leastCommonMultiple_eq_lcm a b

/-- Claim C4: the literal worked scenarios hold: the distributions for (7,3), (10,3),
(13,4) and (4,3); the spans of unit sizes [1,2] at resolution 6 and [1,1,1] at
resolution 3 under equal-extra; and the grid unifier value 6 for row lengths [3,2,2]. -/
theorem c4_scenarios :
    calculateRowDistribution 7 3 = [3, 2, 2]
    ∧ calculateRowDistribution 10 3 = [3, 3, 2, 2]
    ∧ calculateRowDistribution 13 4 = [4, 4, 3, 2]
    ∧ calculateRowDistribution 4 3 = [2, 2]
    ∧ calculateSpans [[⟨0, 1⟩, ⟨1, 2⟩]] 6 FillMode.equalExtra Option.none = [2, 4]
    ∧ calculateSpans [[⟨0, 1⟩, ⟨1, 1⟩, ⟨2, 1⟩]] 3 FillMode.equalExtra Option.none = [1, 1, 1]
    ∧ calculateGridColumns [[⟨0, 1⟩, ⟨1, 1⟩, ⟨2, 1⟩], [⟨3, 1⟩, ⟨4, 1⟩],
        [⟨5, 1⟩, ⟨6, 1⟩]] = 6 := by
  refine ⟨by decide, by decide, by decide, by decide, by decide, by decide, ?_⟩
  simp only [calculateGridColumns]
  rw [if_neg (by decide)]
  rw [leastCommonMultiple_funext]
  decide

/-! The iterated lcm fold is the least common multiple of the list members. -/

theorem dvd_foldl_lcm_init : ∀ (l : List Nat) (a : Nat), a ∣ l.foldl Nat.lcm a := by
  intro l
  induction l with
  | nil => intro a; exact dvd_refl a
  | cons x xs ih =>
    intro a
    exact dvd_trans (Nat.dvd_lcm_left a x) (ih (Nat.lcm a x))

theorem mem_dvd_foldl_lcm : ∀ (l : List Nat) (a x : Nat), x ∈ l → x ∣ l.foldl Nat.lcm a := by
  intro l
  induction l with
  | nil => intro a x hx; simp at hx
  | cons y ys ih =>
    intro a x hx
    rcases List.mem_cons.mp hx with rfl | hx
    · exact dvd_trans (Nat.dvd_lcm_right a x) (dvd_foldl_lcm_init ys (Nat.lcm a x))
    · exact ih (Nat.lcm a y) x hx

theorem foldl_lcm_dvd : ∀ (l : List Nat) (a m : Nat), a ∣ m → (∀ x ∈ l, x ∣ m) →
    l.foldl Nat.lcm a ∣ m := by
  intro l
  induction l with
  | nil => intro a m ha _; exact ha
  | cons x xs ih =>
    intro a m ha hl
    exact ih (Nat.lcm a x) m (Nat.lcm_dvd ha (hl x (by simp)))
      (fun y hy => hl y (List.mem_cons_of_mem _ hy))

/-- Claim C5: for every non-empty list of rows with positive lengths that are not all
equal, calculateGridColumns returns the iterated pairwise lcm of the row lengths, which
is the least common multiple of those lengths (every length divides it and it divides
every common multiple); consequently every row's per-item span, the grid resolution
divided by the row length, is an exact integer. -/
theorem c5_gridUnifier (rows : List Row)
    (hne : rows ≠ []) (hrows : ∀ row ∈ rows, row ≠ [])
    (hdiff : allSameLength (rows.map List.length) = false) :
    calculateGridColumns rows = (rows.map List.length).foldl Nat.lcm 1
    ∧ (∀ len ∈ rows.map List.length, len ∣ calculateGridColumns rows)
    ∧ (∀ len ∈ rows.map List.length,
        len * (calculateGridColumns rows / len) = calculateGridColumns rows)
    ∧ ∀ m, (∀ len ∈ rows.map List.length, len ∣ m) → calculateGridColumns rows ∣ m := by
  have heq : calculateGridColumns rows = (rows.map List.length).foldl Nat.lcm 1 := by
    simp only [calculateGridColumns]
    rw [if_neg (by simp [hdiff])]
    rw [leastCommonMultiple_funext]
  have hdvd : ∀ len ∈ rows.map List.length, len ∣ calculateGridColumns rows := by
    intro len hlen
    rw [heq]
    exact mem_dvd_foldl_lcm _ 1 len hlen
  refine ⟨heq, hdvd, ?_, ?_⟩
  · intro len hlen
    exact Nat.mul_div_cancel' (hdvd len hlen)
  · intro m hm
    rw [heq]
    exact foldl_lcm_dvd _ 1 m (Nat.one_dvd m) hm

/-- Claim C5 witness: rows of lengths 1 and 2 give grid resolution lcm 1 2 = 2. -/
theorem c5_gridUnifier_witness :
    calculateGridColumns [[⟨0, 1⟩], [⟨1, 1⟩, ⟨2, 1⟩]]
      = (([[⟨0, 1⟩], [⟨1, 1⟩, ⟨2, 1⟩]] : List Row).map List.length).foldl Nat.lcm 1 :=
  (c5_gridUnifier [[⟨0, 1⟩], [⟨1, 1⟩, ⟨2, 1⟩]] (by decide) (by decide) (by decide)).1

/-! Helper lemmas for the row builder. -/

theorem buildGreedyAux_flatten (M : Nat) : ∀ (l : List RowItem) (cur : Row) (sz : Nat),
    (buildGreedyAux M l cur sz).flatten = cur ++ l := by
  intro l
  induction l with
  | nil =>
    intro cur sz
    by_cases hc : cur.isEmpty
    · simp [buildGreedyAux, hc, List.isEmpty_iff.mp hc]
    · simp [buildGreedyAux, hc]
  | cons item rest ih =>
    intro cur sz
    simp only [buildGreedyAux]
    by_cases hover : M < sz + item.size
    · rw [if_pos hover]
      by_cases hc : cur.isEmpty
      · simp [hc, List.isEmpty_iff.mp hc, List.flatten_append, ih]
      · simp [hc, List.flatten_append, ih]
    · rw [if_neg hover]
      rw [ih]
      simp

theorem buildGreedyAux_rowTotal (M : Nat) : ∀ (l : List RowItem) (cur : Row) (sz : Nat),
    sz = rowTotal cur → rowTotal cur ≤ M → (∀ it ∈ l, it.size ≤ M) →
    ∀ row ∈ buildGreedyAux M l cur sz, rowTotal row ≤ M := by
  intro l
  induction l with
  | nil =>
    intro cur sz _ hcur _ row hrow
    by_cases hc : cur.isEmpty
    · simp [buildGreedyAux, hc] at hrow
    · simp [buildGreedyAux, hc] at hrow
      subst hrow
      exact hcur
  | cons item rest ih =>
    intro cur sz hsz hcur hl row hrow
    simp only [buildGreedyAux] at hrow
    by_cases hover : M < sz + item.size
    · rw [if_pos hover] at hrow
      rcases List.mem_append.mp hrow with h | h
      · by_cases hc : cur.isEmpty
        · simp [hc] at h
        · simp [hc] at h
          subst h
          exact hcur
      · refine ih [item] item.size (by rw [rowTotal_single]) ?_
          (fun it hit => hl it (List.mem_cons_of_mem _ hit)) row h
        rw [rowTotal_single]
        exact hl item (by simp)
    · rw [if_neg hover] at hrow
      refine ih (cur ++ [item]) (sz + item.size) ?_ ?_
        (fun it hit => hl it (List.mem_cons_of_mem _ hit)) row hrow
      · rw [rowTotal_append, rowTotal_single, hsz]
      · rw [rowTotal_append, rowTotal_single]
        omega

theorem sliceRows_flatten : ∀ (dist : List Nat) (items : List RowItem),
    (sliceRows items dist).flatten = items.take dist.sum := by
  intro dist
  induction dist with
  | nil => intro items; simp [sliceRows]
  | cons n rest ih =>
    intro items
    simp only [sliceRows, List.flatten_cons, ih, List.sum_cons]
    exact (List.take_add items n rest.sum).symm

theorem sliceRows_row_length : ∀ (dist : List Nat) (items : List RowItem) (row : Row),
    row ∈ sliceRows items dist → ∃ n ∈ dist, row.length ≤ n := by
  intro dist
  induction dist with
  | nil => intro items row h; simp [sliceRows] at h
  | cons n rest ih =>
    intro items row h
    simp only [sliceRows, List.mem_cons] at h
    rcases h with rfl | h
    · exact ⟨n, by simp, by simp [List.length_take]⟩
    · obtain ⟨m, hm, hlen⟩ := ih (items.drop n) row h
      exact ⟨m, List.mem_cons_of_mem _ hm, hlen⟩

theorem sliceRows_row_mem : ∀ (dist : List Nat) (items : List RowItem) (row : Row),
    row ∈ sliceRows items dist → ∀ it ∈ row, it ∈ items := by
  intro dist
  induction dist with
  | nil => intro items row h; simp [sliceRows] at h
  | cons n rest ih =>
    intro items row h it hit
    simp only [sliceRows, List.mem_cons] at h
    rcases h with rfl | h
    · exact List.take_subset n items hit
    · exact List.drop_subset n items (ih (items.drop n) row h it hit)

theorem rowTotal_of_sizes_one (row : Row) (h : ∀ it ∈ row, it.size = 1) :
    rowTotal row = row.length := by
  induction row with
  | nil => simp [rowTotal_eq]
  | cons a rest ih =>
    have ha := h a (by simp)
    have hr := ih (fun it hit => h it (List.mem_cons_of_mem _ hit))
    simp only [rowTotal_eq, List.map_cons, List.sum_cons, List.length_cons] at *
    omega

theorem sum_of_all_one (l : List Nat) (h : ∀ s ∈ l, s = 1) : l.sum = l.length := by
  induction l with
  | nil => simp
  | cons a rest ih =>
    have ha := h a (by simp)
    have hr := ih (fun s hs => h s (List.mem_cons_of_mem _ hs))
    simp only [List.sum_cons, List.length_cons]
    omega

/-- Claim C6: for every size sequence with each unit size between 1 and M and M at
least 1, buildRows partitions exactly the enumerated items in original order
(concatenating the rows recovers the enumeration of indices 0..N-1), every row's unit
total is at most M and every row's cardinality is at most M, and the empty input
yields no rows. -/
theorem c6_rowValidity (sizes : List Nat) (M : Nat)
    (hsz : ∀ s ∈ sizes, 1 ≤ s ∧ s ≤ M) (hM : 1 ≤ M) :
    (buildRows sizes M).flatten = enumItems 0 sizes
    ∧ (∀ row ∈ buildRows sizes M, rowTotal row ≤ M ∧ row.length ≤ M)
    ∧ (sizes = [] → buildRows sizes M = []) := by
  by_cases hemp : sizes.isEmpty = true
  · have he : sizes = [] := List.isEmpty_iff.mp hemp
    subst he
    refine ⟨by simp [buildRows, enumItems], ?_, fun _ => by simp [buildRows]⟩
    intro row hrow
    simp [buildRows] at hrow
  · have hne : ¬ sizes = [] := by simpa [List.isEmpty_iff] using hemp
    by_cases huni : (sizes.all (fun s => s == sizes.headD 0) && sizes.headD 0 == 1) = true
    · have hall1 : ∀ s ∈ sizes, s = 1 := by
        rw [Bool.and_eq_true] at huni
        obtain ⟨h1, h2⟩ := huni
        rw [List.all_eq_true] at h1
        intro s hs
        have h3 := h1 s hs
        rw [beq_iff_eq] at h3 h2
        rw [h3, h2]
      have hbr : buildRows sizes M = buildBalancedRows sizes M := by
        simp only [buildRows]
        rw [if_neg hemp, if_pos huni]
      rw [hbr]
      by_cases hcnt : sizes.length ≤ M
      · have hrows : buildBalancedRows sizes M = [enumItems 0 sizes] := by
          simp only [buildBalancedRows]
          rw [if_pos hcnt]
        rw [hrows]
        refine ⟨by simp, ?_, fun habs => absurd habs hne⟩
        intro row hrow
        simp only [List.mem_singleton] at hrow
        subst hrow
        constructor
        · rw [rowTotal_enumItems, sum_of_all_one sizes hall1]
          exact hcnt
        · rw [enumItems_length]
          exact hcnt
      · have hrows : buildBalancedRows sizes M = sliceRows (enumItems 0 sizes)
            (calculateBalancedDistribution sizes.length M ((sizes.length + M - 1) / M)) := by
          simp only [buildBalancedRows]
          rw [if_neg hcnt]
        obtain ⟨hsum, hmem⟩ := calculateBalancedDistribution_props sizes.length M hM
        rw [hrows]
        refine ⟨?_, ?_, fun habs => absurd habs hne⟩
        · rw [sliceRows_flatten, hsum, ← enumItems_length 0 sizes, List.take_length]
        · intro row hrow
          have hlen : row.length ≤ M := by
            obtain ⟨n, hn, hl⟩ := sliceRows_row_length _ _ row hrow
            have := hmem n hn
            omega
          have hone : ∀ it ∈ row, it.size = 1 := by
            intro it hit
            have hin := sliceRows_row_mem _ _ row hrow it hit
            exact hall1 it.size (enumItems_size_mem 0 sizes it hin)
          refine ⟨?_, hlen⟩
          rw [rowTotal_of_sizes_one row hone]
          exact hlen
    · have hbr : buildRows sizes M = buildGreedyRows sizes M := by
        simp only [buildRows]
        rw [if_neg hemp, if_neg huni]
      rw [hbr]
      have hflat : (buildGreedyRows sizes M).flatten = enumItems 0 sizes := by
        simp only [buildGreedyRows]
        rw [buildGreedyAux_flatten]
        simp
      refine ⟨hflat, ?_, fun habs => absurd habs hne⟩
      intro row hrow
      have hrow' : row ∈ buildGreedyAux M (enumItems 0 sizes) [] 0 := by
        simpa [buildGreedyRows] using hrow
      have htot : rowTotal row ≤ M := by
        refine buildGreedyAux_rowTotal M (enumItems 0 sizes) [] 0 rfl (Nat.zero_le M) ?_
          row hrow'
        intro it hit
        exact (hsz it.size (enumItems_size_mem 0 sizes it hit)).2
      have hone : ∀ it ∈ row, 1 ≤ it.size := by
        intro it hit
        have hmem2 : it ∈ (buildGreedyRows sizes M).flatten :=
          List.mem_flatten.mpr ⟨row, hrow, hit⟩
        rw [hflat] at hmem2
        exact (hsz it.size (enumItems_size_mem 0 sizes it hmem2)).1
      exact ⟨htot, le_trans (length_le_rowTotal row hone) htot⟩

/-- Claim C6 witness: sizes [1, 2, 1] at 3 columns partition in original order. -/
theorem c6_rowValidity_witness :
    (buildRows [1, 2, 1] 3).flatten = enumItems 0 [1, 2, 1] :=
  (c6_rowValidity [1, 2, 1] 3 (by decide) (by decide)).1

/-- Claim C7: the claim as stated is false on the code. In parseSize (the parse-size
module used by the main component), an explicit numeric sizeSpec misses the semantic
lookup and defaults to 1: the numeric value 5 at operative maximum 3 resolves to 1,
not to the maximum 3 that the cap-enforcement sentence requires. -/
theorem c7_sizeSpec_counterexample :
    parseSize (SizeSpec.numeric 5) 3 = 1 ∧ parseSize (SizeSpec.numeric 5) 3 ≠ 3 := by
  decide

/-- Claim C7 (amended): for operative maximum M at least 1, the semantic labels small,
medium, large resolve to units 1, 2, 3 capped at M in both resolvers; absent and
unrecognized specs resolve to 1; an explicit numeric value resolves to itself capped at
M in resolveDataSize but is treated as unrecognized (resolving to 1) in parseSize; and
no resolved unit count ever exceeds M. -/
theorem c7_sizeSpec (spec : SizeSpec) (M : Nat) (n : Int) (hM : 1 ≤ M) :
    parseSize spec M ≤ M
    ∧ resolveDataSize spec M ≤ (M : Int)
    ∧ parseSize SizeSpec.small M = min 1 M
    ∧ parseSize SizeSpec.medium M = min 2 M
    ∧ parseSize SizeSpec.large M = min 3 M
    ∧ parseSize SizeSpec.absent M = 1
    ∧ parseSize SizeSpec.invalid M = 1
    ∧ parseSize (SizeSpec.numeric n) M = 1
    ∧ resolveDataSize SizeSpec.small M = min 1 (M : Int)
    ∧ resolveDataSize SizeSpec.medium M = min 2 (M : Int)
    ∧ resolveDataSize SizeSpec.large M = min 3 (M : Int)
    ∧ resolveDataSize SizeSpec.absent M = 1
    ∧ resolveDataSize SizeSpec.invalid M = 1
    ∧ resolveDataSize (SizeSpec.numeric n) M = min n (M : Int) := by
  refine ⟨?_, ?_, by simp [parseSize], by simp [parseSize], by simp [parseSize],
    by simp [parseSize]; omega, by simp [parseSize]; omega, by simp [parseSize]; omega,
    rfl, rfl, rfl, rfl, rfl, rfl⟩
  · cases spec <;> simp [parseSize]
  · cases spec <;> simp [resolveDataSize] <;> omega

/-- Claim C7 witness: the numeric spec 5 at maximum 3 stays within the maximum. -/
theorem c7_sizeSpec_witness : parseSize (SizeSpec.numeric 5) 3 ≤ 3 :=
  (c7_sizeSpec (SizeSpec.numeric 5) 3 5 (by decide)).1

/-- Claim C8: the claim as stated is false on the code. The second SmartGrid element's
columns getter (src/unnamed/part_000 lines 378-383) clamps only from below: the
attribute value 20 resolves to 20, outside the claimed range ending at 12. -/
theorem c8_columns_counterexample :
    columnsGetterLegacy (ColumnsAttr.numeric 20) = 20
    ∧ ¬ columnsGetterLegacy (ColumnsAttr.numeric 20) ≤ 12 := by
  decide

/-- Claim C8 (amended): the first SmartGrid columns getter always returns an integer in
the range 1 to 12, with default 3 for a missing or non-numeric attribute and numeric
values clamped into the range; the second (legacy) getter shares the default and the
lower clamp at 1 but has no upper clamp, so values above 12 pass through. -/
theorem c8_columns (attr : ColumnsAttr) (n : Int) :
    1 ≤ columnsGetter attr
    ∧ columnsGetter attr ≤ 12
    ∧ columnsGetter ColumnsAttr.absent = 3
    ∧ columnsGetter ColumnsAttr.invalid = 3
    ∧ columnsGetter (ColumnsAttr.numeric n) = max 1 (min 12 n)
    ∧ 1 ≤ columnsGetterLegacy attr
    ∧ columnsGetterLegacy ColumnsAttr.absent = 3
    ∧ columnsGetterLegacy ColumnsAttr.invalid = 3
    ∧ columnsGetterLegacy (ColumnsAttr.numeric n) = max 1 n := by
  refine ⟨?_, ?_, by decide, by decide, rfl, ?_, by decide, by decide, rfl⟩
  · cases attr <;> simp [columnsGetter]
  · cases attr <;> simp [columnsGetter]
  · cases attr <;> simp [columnsGetterLegacy]
